import Mathlib

/-!
# The character device driver `driver.c`: session gate and message buffer

A shallow embedding of the four file operations of the driver (`dev_open`,
`dev_read`, `dev_write`, `dev_release`) over its three static variables, and
theorems about them.

## Memory model

* `message` is the array `char message[BUFFER_SIZE]`, embedded as a list of
  bytes; a state is well formed when that list has `BUFFER_SIZE` entries.
* The array is the whole modelled memory. A store to an index past the array
  does not change the modelled state, and `strlen` stops at the end of the
  array: the terminator of a buffer that holds `BUFFER_SIZE` characters lies at
  index `BUFFER_SIZE`, one past the array, where `strncat` has stored it.
* What a load from an index past the array yields is not determined by the
  modelled state: the shift loop of `dev_read` takes such bytes from the
  parameter `beyond`, and the theorems hold for every `beyond`.
* Which indices of `message` an operation touches is stated separately from
  what it computes: `dev_read_loads`, `dev_read_terminator` and
  `dev_write_stores` list them, whether or not they lie inside the array.
* The caller's area (`buffer`) is a list of bytes too: the memory found at the
  pointer. A call is well formed when it holds at least `len` bytes.
* `len` is a `size_t`; the `int` counters of the two scanning loops are exact
  for `len ≤ INT_MAX`. The theorems about `dev_read` and `dev_write` take
  `len ≤ MAX_RW_COUNT`, the largest count the kernel hands to a file
  operation. Conversions from `size_t` to `int` and the results of `int`
  arithmetic are reduced to 32 bits explicitly (`toInt32`).
-/

namespace Driver

/-- One `char`. -/
abbrev Byte := Fin 256

/-- Line 9: `#define BUFFER_SIZE 2048`. -/
def BUFFER_SIZE : Nat := 2048

/-- The errno value `EBUSY` of the kernel headers. -/
def EBUSY : Int := 16

/-- Largest value of an `int`. -/
def INT_MAX : Nat := 2147483647

/-- The kernel's bound on the count it hands to a read or write file operation,
`MAX_RW_COUNT = INT_MAX & PAGE_MASK`, for pages of 4096 bytes (larger pages
give a smaller bound). -/
def MAX_RW_COUNT : Nat := 2147479552

/-- Conversion of an integer value to the 32-bit `int` (two's complement). -/
def toInt32 (x : Int) : Int := (x + 2147483648) % 4294967296 - 2147483648

/-- Conversion of an `int` to the 64-bit `size_t`. -/
def toSizeT (x : Int) : Nat := (x % 18446744073709551616).toNat

/-- Lines 16-18: the static variables `isOpen`, `message`, `message_size`. -/
structure State where
  isOpen : Int
  message : List Byte
  message_size : Int
deriving DecidableEq

/-- The state at module load: `isOpen = 0`, `message = {0}`, `message_size = 0`. -/
def init : State := ⟨0, List.replicate BUFFER_SIZE 0, 0⟩

/-! ### The C library on byte arrays -/

/-- `strlen(m)`: the number of bytes before the first zero byte. -/
def strlen : List Byte → Nat
  | [] => 0
  | b :: bs => if b = 0 then 0 else strlen bs + 1

/-- The counting loop of lines 89-94 and 132-137,
`for (i = 0; i < len; i++) if (buffer[i] != 0) n++; else break;`:
the number of leading non-zero bytes among the first `len` bytes. It is also
the number of characters `strncat(dest, buffer, len)` takes from `buffer`. -/
def strnlen : List Byte → Nat → Nat
  | _, 0 => 0
  | [], _ + 1 => 0
  | b :: bs, len + 1 => if b = 0 then 0 else strnlen bs len + 1

/-- Stores the bytes `bs` at the indices `i, i + 1, ...` of `m`, one
assignment `m[j] = b` after the other. -/
def storeAll : List Byte → Nat → List Byte → List Byte
  | m, _, [] => m
  | m, i, b :: bs => storeAll (m.set i b) (i + 1) bs

/-- `strncat(dest, src, n)`: at most `n` characters of `src`, up to its first
zero byte, are stored from index `strlen(dest)` on, followed by a zero byte. -/
def strncat (dest src : List Byte) (n : Nat) : List Byte :=
  storeAll dest (strlen dest) (src.take (strnlen src n) ++ [0])

/-- `memset(m, c, n)`. -/
def memset (m : List Byte) (c : Byte) (n : Nat) : List Byte :=
  storeAll m 0 (List.replicate n c)

/-- `copy_to_user(dst, src, n)`: copies `n` bytes to the caller's area and
returns the number of bytes that could not be copied. `fault` is the number of
bytes the transfer fails on (`0` for a transfer that succeeds). -/
def copy_to_user (fault : Nat) (dst src : List Byte) (n : Nat) : List Byte × Nat :=
  (storeAll dst 0 (src.take (n - min fault n)), min fault n)

/-- The value of `m[j]`; past the array it is `beyond j`. -/
def load (beyond : Nat → Byte) (m : List Byte) (j : Nat) : Byte :=
  m.getD j (beyond j)

/-- Lines 105-107, `for (...; i < availBufferSpace; i++) message[i] = message[i+availBufferSpace];`
started at `i` with `todo` iterations left. -/
def shiftLoop (beyond : Nat → Byte) (availBufferSpace : Nat) :
    Nat → Nat → List Byte → List Byte
  | _, 0, m => m
  | i, todo + 1, m =>
    shiftLoop beyond availBufferSpace (i + 1) todo
      (m.set i (load beyond m (i + availBufferSpace)))

/-! ### The file operations -/

/-- Lines 69-78. -/
def dev_open (s : State) : State × Int :=
  if s.isOpen ≠ 0 then (s, -EBUSY)
  else ({ s with isOpen := 1 }, 0)

/-- Lines 161-166. -/
def dev_release (s : State) : State × Int :=
  ({ s with isOpen := 0 }, 0)

/-- What a `dev_read` call leaves: the state, the caller's area, the value returned. -/
structure ReadResult where
  state : State
  buffer : List Byte
  ret : Int
deriving DecidableEq

/-- Lines 85-121. -/
def dev_read (beyond : Nat → Byte) (fault : Nat) (s : State) (buffer : List Byte)
    (len : Nat) : ReadResult :=
  let numCharsInBuffer : Int := strnlen buffer len
  let availBufferSpace : Int := toInt32 (len - numCharsInBuffer)
  if s.message_size > availBufferSpace then
    let out := (copy_to_user fault buffer s.message (toSizeT availBufferSpace)).1
    let shifted := shiftLoop beyond availBufferSpace.toNat 0 availBufferSpace.toNat s.message
    let message := shifted.set availBufferSpace.toNat 0
    let message_size := toInt32 (strlen message)
    ⟨{ s with message := message, message_size := message_size }, out, message_size⟩
  else
    let out := (copy_to_user fault buffer s.message (toSizeT s.message_size)).1
    ⟨{ s with message := memset s.message 0 BUFFER_SIZE, message_size := 0 }, out, 0⟩

/-- Lines 128-156. -/
def dev_write (s : State) (buffer : List Byte) (len : Nat) : State × Int :=
  let availMessageSpace : Int := toInt32 (BUFFER_SIZE - s.message_size)
  let numCharsInBuffer : Int := strnlen buffer len
  if toInt32 (s.message_size + numCharsInBuffer) > BUFFER_SIZE then
    let message := strncat s.message buffer (toSizeT availMessageSpace)
    ({ s with message := message, message_size := toInt32 (strlen message) }, availMessageSpace)
  else
    let message := strncat s.message buffer (toSizeT numCharsInBuffer)
    ({ s with message := message, message_size := toInt32 (strlen message) }, numCharsInBuffer)

/-- The length invariant of a state: the array has `BUFFER_SIZE` slots and
`message_size` is the number of leading non-zero bytes stored in it. -/
def WellFormed (s : State) : Prop :=
  s.message.length = BUFFER_SIZE ∧ s.message_size = (strlen s.message : Int)

/-- The bytes the buffer holds: the first `message_size` bytes of `message`. -/
def content (s : State) : List Byte := s.message.take s.message_size.toNat

/-- One call of the trace of claim C4: a `dev_read` or a `dev_write` with its arguments. -/
inductive Call where
  | read (beyond : Nat → Byte) (fault : Nat) (buffer : List Byte) (len : Nat)
  | write (buffer : List Byte) (len : Nat)

/-- The state one call leaves. -/
def step (s : State) : Call → State
  | Call.read beyond fault buffer len => (dev_read beyond fault s buffer len).state
  | Call.write buffer len => (dev_write s buffer len).1

/-- The state a finite sequence of calls leaves. -/
def run (s : State) (calls : List Call) : State := calls.foldl step s

/-- A call the kernel can make: the count is at most `MAX_RW_COUNT` and the
caller's area holds at least that many bytes. -/
def validCall : Call → Prop
  | Call.read _ _ buffer len => len ≤ MAX_RW_COUNT ∧ len ≤ buffer.length
  | Call.write buffer len => len ≤ MAX_RW_COUNT ∧ len ≤ buffer.length

/-- Whether a call is a `dev_read`. -/
def isRead : Call → Prop
  | Call.read _ _ _ _ => True
  | Call.write _ _ => False

/-- The indices `i + availBufferSpace` the loop of lines 105-107 reads, in
order, started at `i` with `todo` iterations left. -/
def shiftLoopLoads (availBufferSpace : Nat) : Nat → Nat → List Nat
  | _, 0 => []
  | i, todo + 1 => (i + availBufferSpace) :: shiftLoopLoads availBufferSpace (i + 1) todo

/-- The indices of `message` the shift loop of a `dev_read` call reads:
none when the call takes the full-drain branch. -/
def dev_read_loads (s : State) (buffer : List Byte) (len : Nat) : List Nat :=
  let numCharsInBuffer : Int := strnlen buffer len
  let availBufferSpace : Int := toInt32 (len - numCharsInBuffer)
  if s.message_size > availBufferSpace then
    shiftLoopLoads availBufferSpace.toNat 0 availBufferSpace.toNat
  else []

/-- The index line 108, `message[i] = 0`, stores the terminator at: the value
of `i` when the shift loop ends. None when the call takes the full-drain branch. -/
def dev_read_terminator (s : State) (buffer : List Byte) (len : Nat) : Option Nat :=
  let numCharsInBuffer : Int := strnlen buffer len
  let availBufferSpace : Int := toInt32 (len - numCharsInBuffer)
  if s.message_size > availBufferSpace then some availBufferSpace.toNat else none

/-- The indices `storeAll m i bs` assigns to, in order. -/
def storeIndices : Nat → List Byte → List Nat
  | _, [] => []
  | i, _ :: bs => i :: storeIndices (i + 1) bs

/-- The indices of `dest` that `strncat(dest, src, n)` stores to: the appended
characters and the terminating zero. -/
def strncat_stores (dest src : List Byte) (n : Nat) : List Nat :=
  storeIndices (strlen dest) (src.take (strnlen src n) ++ [0])

/-- The indices of `message` a `dev_write` call stores to (lines 143 and 150). -/
def dev_write_stores (s : State) (buffer : List Byte) (len : Nat) : List Nat :=
  let availMessageSpace : Int := toInt32 (BUFFER_SIZE - s.message_size)
  let numCharsInBuffer : Int := strnlen buffer len
  if toInt32 (s.message_size + numCharsInBuffer) > BUFFER_SIZE then
    strncat_stores s.message buffer (toSizeT availMessageSpace)
  else
    strncat_stores s.message buffer (toSizeT numCharsInBuffer)

/-! ### Concrete inputs used by the evaluations below -/

/-- The bytes of "HELLO". -/
def hello : List Byte := [72, 69, 76, 76, 79]

/-- The state after `dev_write("HELLO", 5)` on the initial state. -/
def helloState : State := (dev_write init hello 5).1

/-- A state whose buffer holds `BUFFER_SIZE - 3` bytes `'A'`. -/
def nearlyFull : State :=
  ⟨0, List.replicate (BUFFER_SIZE - 3) 65 ++ List.replicate 3 0, ((BUFFER_SIZE - 3 : Nat) : Int)⟩

/-- The six bytes `'A' 'B' 0 'D' 'E' 'F'`: an input with an embedded zero byte. -/
def embeddedZero : List Byte := [65, 66, 0, 68, 69, 70]

/-- Memory past the array that reads as zero. -/
def zeroBeyond : Nat → Byte := fun _ => 0

/-! ## Arithmetic of the conversions -/

theorem toInt32_of_le {x : Int} (h0 : 0 ≤ x) (h1 : x ≤ INT_MAX) : toInt32 x = x := by
  unfold toInt32
  unfold INT_MAX at h1
  omega

theorem max_rw_count_bound : MAX_RW_COUNT + BUFFER_SIZE ≤ INT_MAX := by decide

theorem toSizeT_natCast (n : Nat) (h : n ≤ INT_MAX) : toSizeT (n : Int) = n := by
  unfold toSizeT
  unfold INT_MAX at h
  omega

/-! ## The C library functions -/

theorem strlen_le (m : List Byte) : strlen m ≤ m.length := by
  induction m with
  | nil => simp [strlen]
  | cons b bs ih =>
    simp only [strlen, List.length_cons]
    split <;> omega

theorem strlen_all_nonzero (m : List Byte) (h : ∀ b ∈ m, b ≠ 0) : strlen m = m.length := by
  induction m with
  | nil => rfl
  | cons b bs ih =>
    have hb : b ≠ 0 := h b (List.mem_cons_self _ _)
    have := ih (fun x hx => h x (List.mem_cons_of_mem _ hx))
    simp [strlen, hb, this]

theorem strlen_append (a t : List Byte) (h : ∀ b ∈ a, b ≠ 0) :
    strlen (a ++ t) = a.length + strlen t := by
  induction a with
  | nil => simp
  | cons b bs ih =>
    have hb : b ≠ 0 := h b (List.mem_cons_self _ _)
    have := ih (fun x hx => h x (List.mem_cons_of_mem _ hx))
    simp [strlen, hb, this]
    omega

theorem take_strlen_nonzero (m : List Byte) : ∀ b ∈ m.take (strlen m), b ≠ 0 := by
  induction m with
  | nil => simp [strlen]
  | cons b bs ih =>
    by_cases hb : b = 0
    · simp [strlen, hb]
    · simp only [strlen, hb, if_false, List.take_succ_cons, List.mem_cons]
      rintro x (rfl | hx)
      · exact hb
      · exact ih x hx

theorem strnlen_le_len (b : List Byte) (n : Nat) : strnlen b n ≤ n := by
  induction b generalizing n with
  | nil => cases n <;> simp [strnlen]
  | cons x xs ih =>
    cases n with
    | zero => simp [strnlen]
    | succ k =>
      simp only [strnlen]
      split
      · omega
      · have := ih k
        omega

theorem strnlen_le_length (b : List Byte) (n : Nat) : strnlen b n ≤ b.length := by
  induction b generalizing n with
  | nil => cases n <;> simp [strnlen]
  | cons x xs ih =>
    cases n with
    | zero => simp [strnlen]
    | succ k =>
      simp only [strnlen, List.length_cons]
      split
      · omega
      · have := ih k
        omega

theorem strnlen_eq_strlen_take (b : List Byte) (n : Nat) : strnlen b n = strlen (b.take n) := by
  induction b generalizing n with
  | nil => cases n <;> simp [strnlen, strlen]
  | cons x xs ih =>
    cases n with
    | zero => simp [strnlen, strlen]
    | succ k => simp [strnlen, strlen, ih k]

theorem take_strnlen_nonzero (b : List Byte) (n : Nat) : ∀ x ∈ b.take (strnlen b n), x ≠ 0 := by
  induction b generalizing n with
  | nil => simp
  | cons y ys ih =>
    cases n with
    | zero => simp [strnlen]
    | succ k =>
      by_cases hy : y = 0
      · simp [strnlen, hy]
      · simp only [strnlen, hy, if_false, List.take_succ_cons, List.mem_cons]
        rintro x (rfl | hx)
        · exact hy
        · exact ih k x hx

/-- Scanning no further than the characters found finds as many as were asked for. -/
theorem strnlen_of_le (b : List Byte) (n k : Nat) (h : k ≤ strnlen b n) : strnlen b k = k := by
  induction b generalizing n k with
  | nil =>
    cases n <;> simp [strnlen] at h <;> subst h <;> simp [strnlen]
  | cons y ys ih =>
    cases k with
    | zero => simp [strnlen]
    | succ j =>
      cases n with
      | zero => simp [strnlen] at h
      | succ i =>
        by_cases hy : y = 0
        · simp [strnlen, hy] at h
        · simp only [strnlen, hy, if_false] at h ⊢
          have := ih i j (by omega)
          omega

theorem storeAll_length (m : List Byte) (i : Nat) (bs : List Byte) :
    (storeAll m i bs).length = m.length := by
  induction bs generalizing m i with
  | nil => rfl
  | cons b bs ih => simp [storeAll, ih]

theorem storeAll_nil (i : Nat) (bs : List Byte) : storeAll [] i bs = [] := by
  induction bs generalizing i with
  | nil => rfl
  | cons b bs ih => simp [storeAll, ih]

theorem storeAll_cons_succ (x : Byte) (m : List Byte) (i : Nat) (bs : List Byte) :
    storeAll (x :: m) (i + 1) bs = x :: storeAll m i bs := by
  induction bs generalizing m i with
  | nil => rfl
  | cons b bs ih => simp [storeAll, ih]

/-- Storing from index 0: the stored bytes replace the front of the array. -/
theorem storeAll_zero (m bs : List Byte) :
    storeAll m 0 bs = bs.take m.length ++ m.drop bs.length := by
  induction bs generalizing m with
  | nil => simp [storeAll]
  | cons b bs ih =>
    cases m with
    | nil => simp [storeAll_nil]
    | cons x xs => simp [storeAll, storeAll_cons_succ, ih]

/-- Storing from index `i` inside the array: the front is kept, the bytes that
fit are stored, the rest of the array is kept. -/
theorem storeAll_eq (m : List Byte) (i : Nat) (bs : List Byte) (h : i ≤ m.length) :
    storeAll m i bs = m.take i ++ (bs.take (m.length - i) ++ m.drop (i + bs.length)) := by
  induction i generalizing m with
  | zero => simp [storeAll_zero]
  | succ j ih =>
    cases m with
    | nil => simp at h
    | cons x xs =>
      have hj : j ≤ xs.length := by simpa using h
      rw [storeAll_cons_succ, ih xs hj]
      have e : j + 1 + bs.length = (j + bs.length) + 1 := by omega
      simp [e]

/-- The array `strncat` leaves when the characters it appends end inside the
array or exactly at its end: the old string, the appended characters, and a
tail that is empty or starts with the terminator. -/
theorem strncat_eq (m src : List Byte) (n : Nat)
    (h : strlen m + strnlen src n ≤ m.length) :
    ∃ t : List Byte, strlen t = 0 ∧
      strncat m src n = (m.take (strlen m) ++ src.take (strnlen src n)) ++ t := by
  have hL : strlen m ≤ m.length := strlen_le m
  have hk : (src.take (strnlen src n)).length = strnlen src n := by
    simp [strnlen_le_length src n]
  unfold strncat
  rw [storeAll_eq m (strlen m) _ hL, List.take_append_eq_append_take, hk]
  by_cases hfull : strlen m + strnlen src n = m.length
  · refine ⟨[], rfl, ?_⟩
    have e1 : m.length - strlen m - strnlen src n = 0 := by omega
    have e2 : m.length - strlen m = strnlen src n := by omega
    have e3 : List.drop (strlen m + (src.take (strnlen src n) ++ [0]).length) m = [] := by
      apply List.drop_eq_nil_of_le
      simp [hk]
      omega
    rw [e3, e1, e2]
    simp
  · refine ⟨0 :: List.drop (strlen m + (src.take (strnlen src n) ++ [0]).length) m, by simp [strlen], ?_⟩
    have e1 : m.length - strlen m - strnlen src n = (m.length - strlen m - strnlen src n - 1) + 1 := by
      omega
    have e2 : List.take (m.length - strlen m) (List.take (strnlen src n) src)
        = List.take (strnlen src n) src := by
      apply List.take_of_length_le
      rw [hk]
      omega
    rw [e2, e1]
    simp

theorem strncat_length (m src : List Byte) (n : Nat) : (strncat m src n).length = m.length := by
  unfold strncat
  exact storeAll_length _ _ _

theorem strncat_strlen (m src : List Byte) (n : Nat)
    (h : strlen m + strnlen src n ≤ m.length) :
    strlen (strncat m src n) = strlen m + strnlen src n := by
  obtain ⟨t, ht, e⟩ := strncat_eq m src n h
  have hnz : ∀ b ∈ m.take (strlen m) ++ src.take (strnlen src n), b ≠ 0 := by
    intro b hb
    rcases List.mem_append.1 hb with hb | hb
    · exact take_strlen_nonzero m b hb
    · exact take_strnlen_nonzero src n b hb
  rw [e, strlen_append _ _ hnz, ht]
  simp [strlen_le m, strnlen_le_length src n]

theorem strncat_take (m src : List Byte) (n : Nat)
    (h : strlen m + strnlen src n ≤ m.length) :
    (strncat m src n).take (strlen m + strnlen src n)
      = m.take (strlen m) ++ src.take (strnlen src n) := by
  obtain ⟨t, _, e⟩ := strncat_eq m src n h
  rw [e]
  apply List.take_left'
  simp [strlen_le m, strnlen_le_length src n]

/-! ## `dev_write` -/

/-- The fits case of `dev_write` (lines 148-155) on a well-formed state. -/
theorem dev_write_fits_eq (s : State) (buffer : List Byte) (len : Nat)
    (hwf : WellFormed s) (hlen : len ≤ MAX_RW_COUNT)
    (hfit : strlen s.message + strnlen buffer len ≤ BUFFER_SIZE) :
    dev_write s buffer len =
      ({ s with message := strncat s.message buffer (strnlen buffer len),
                message_size := ((strlen s.message + strnlen buffer len : Nat) : Int) },
       (strnlen buffer len : Int)) := by
  obtain ⟨hlength, hsize⟩ := hwf
  have hbound := max_rw_count_bound
  have hn : strnlen buffer len ≤ INT_MAX :=
    le_trans (le_trans (strnlen_le_len buffer len) hlen) (by omega)
  have hnn : strnlen buffer (strnlen buffer len) = strnlen buffer len :=
    strnlen_of_le buffer len _ (le_refl _)
  have hB : BUFFER_SIZE ≤ INT_MAX := by decide
  have hcond : ¬ (toInt32 (s.message_size + (strnlen buffer len : Int)) > (BUFFER_SIZE : Int)) := by
    rw [hsize, toInt32_of_le (by omega) (by omega)]
    omega
  have hstr : strlen (strncat s.message buffer (strnlen buffer len))
      = strlen s.message + strnlen buffer len := by
    have := strncat_strlen s.message buffer (strnlen buffer len) (by rw [hnn, hlength]; exact hfit)
    rw [hnn] at this
    exact this
  have h32 : toInt32 ((strlen s.message + strnlen buffer len : Nat) : Int)
      = ((strlen s.message + strnlen buffer len : Nat) : Int) := by
    apply toInt32_of_le
    · omega
    · have : BUFFER_SIZE ≤ INT_MAX := by decide
      omega
  unfold dev_write
  simp only [hcond, if_false, toSizeT_natCast _ hn, hstr, h32]

/-- The overflow case of `dev_write` (lines 140-147) on a well-formed state. -/
theorem dev_write_overflow_eq (s : State) (buffer : List Byte) (len : Nat)
    (hwf : WellFormed s) (hlen : len ≤ MAX_RW_COUNT)
    (hover : BUFFER_SIZE < strlen s.message + strnlen buffer len) :
    dev_write s buffer len =
      ({ s with message := s.message.take (strlen s.message)
                             ++ buffer.take (BUFFER_SIZE - strlen s.message),
                message_size := (BUFFER_SIZE : Int) },
       ((BUFFER_SIZE - strlen s.message : Nat) : Int)) := by
  obtain ⟨hlength, hsize⟩ := hwf
  have hL : strlen s.message ≤ BUFFER_SIZE := hlength ▸ strlen_le s.message
  have hk : strnlen buffer (BUFFER_SIZE - strlen s.message) = BUFFER_SIZE - strlen s.message :=
    strnlen_of_le buffer len _ (by omega)
  have hB : BUFFER_SIZE ≤ INT_MAX := by decide
  have hbound := max_rw_count_bound
  have hn : strnlen buffer len ≤ MAX_RW_COUNT := le_trans (strnlen_le_len buffer len) hlen
  have hcond : toInt32 (s.message_size + (strnlen buffer len : Int)) > (BUFFER_SIZE : Int) := by
    rw [hsize, toInt32_of_le (by omega) (by omega)]
    omega
  have havail : toInt32 ((BUFFER_SIZE : Int) - s.message_size)
      = ((BUFFER_SIZE - strlen s.message : Nat) : Int) := by
    rw [hsize, toInt32_of_le (by omega) (by omega)]
    omega
  have hsz : toSizeT ((BUFFER_SIZE - strlen s.message : Nat) : Int) = BUFFER_SIZE - strlen s.message := by
    apply toSizeT_natCast
    have : BUFFER_SIZE ≤ INT_MAX := by decide
    omega
  have hsum : strlen s.message + strnlen buffer (BUFFER_SIZE - strlen s.message) ≤ s.message.length := by
    rw [hk, hlength]
    omega
  have hmsg : strncat s.message buffer (BUFFER_SIZE - strlen s.message)
      = s.message.take (strlen s.message) ++ buffer.take (BUFFER_SIZE - strlen s.message) := by
    obtain ⟨t, _, e⟩ := strncat_eq s.message buffer (BUFFER_SIZE - strlen s.message) hsum
    rw [hk] at e
    have hlen2 := congrArg List.length e
    rw [strncat_length, List.length_append, List.length_append, List.length_take,
      List.length_take] at hlen2
    have hb : BUFFER_SIZE - strlen s.message ≤ buffer.length := by
      rw [← hk]
      exact strnlen_le_length _ _
    have ht : t = [] := by
      apply List.eq_nil_of_length_eq_zero
      rw [hlength] at hlen2
      omega
    rw [e, ht, List.append_nil]
  have hstr : strlen (strncat s.message buffer (BUFFER_SIZE - strlen s.message)) = BUFFER_SIZE := by
    rw [strncat_strlen _ _ _ hsum, hk]
    omega
  have h32 : toInt32 ((BUFFER_SIZE : Nat) : Int) = (BUFFER_SIZE : Int) := by
    apply toInt32_of_le
    · omega
    · have : BUFFER_SIZE ≤ INT_MAX := by decide
      omega
  have hstr2 := hstr
  rw [hmsg] at hstr2
  unfold dev_write
  simp only [hcond, if_true, havail, hsz, hmsg, hstr2, h32]

/-! ## `dev_read` -/

theorem strlen_replicate_zero (n : Nat) : strlen (List.replicate n (0 : Byte)) = 0 := by
  cases n <;> simp [strlen, List.replicate_succ]

theorem take_strlen_eq_takeWhile (m : List Byte) :
    m.take (strlen m) = m.takeWhile (fun b => decide (b ≠ 0)) := by
  induction m with
  | nil => rfl
  | cons b bs ih =>
    by_cases hb : b = 0
    · simp [strlen, hb, List.takeWhile]
    · simp [strlen, hb, List.takeWhile, ih]

theorem strnlen_length (b : List Byte) : strnlen b b.length = strlen b := by
  rw [strnlen_eq_strlen_take, List.take_length]

theorem memset_all (m : List Byte) (c : Byte) : memset m c m.length = List.replicate m.length c := by
  unfold memset
  rw [storeAll_zero]
  simp

theorem toSizeT_of_le {x : Int} (h0 : 0 ≤ x) (h1 : x ≤ INT_MAX) : toSizeT x = x.toNat := by
  unfold toSizeT
  unfold INT_MAX at h1
  omega

/-- The full-drain case of `dev_read` (lines 113-120) with a transfer that succeeds. -/
theorem dev_read_drain_eq (beyond : Nat → Byte) (s : State) (buffer : List Byte) (len : Nat)
    (hlength : s.message.length = BUFFER_SIZE)
    (h0 : 0 ≤ s.message_size) (h1 : s.message_size ≤ BUFFER_SIZE)
    (hlen : len ≤ MAX_RW_COUNT) (hbuf : len ≤ buffer.length)
    (hfit : s.message_size ≤ ((len - strnlen buffer len : Nat) : Int)) :
    dev_read beyond 0 s buffer len =
      ⟨{ s with message := List.replicate BUFFER_SIZE 0, message_size := 0 },
        s.message.take s.message_size.toNat ++ buffer.drop s.message_size.toNat, 0⟩ := by
  have hprobe : strnlen buffer len ≤ len := strnlen_le_len buffer len
  have hbound := max_rw_count_bound
  have havail : toInt32 ((len : Int) - (strnlen buffer len : Int))
      = ((len - strnlen buffer len : Nat) : Int) := by
    rw [toInt32_of_le] <;> omega
  have hcond : ¬ (s.message_size > ((len - strnlen buffer len : Nat) : Int)) := by omega
  have hB : BUFFER_SIZE ≤ INT_MAX := by decide
  have hsz : toSizeT s.message_size = s.message_size.toNat :=
    toSizeT_of_le h0 (by omega)
  have hmem : memset s.message 0 BUFFER_SIZE = List.replicate BUFFER_SIZE 0 := by
    have := memset_all s.message 0
    rw [hlength] at this
    exact this
  have hout : storeAll buffer 0 (s.message.take s.message_size.toNat)
      = s.message.take s.message_size.toNat ++ buffer.drop s.message_size.toNat := by
    have hl : (s.message.take s.message_size.toNat).length = s.message_size.toNat := by
      rw [List.length_take, hlength]
      omega
    rw [storeAll_zero, hl, List.take_of_length_le]
    rw [hl]
    omega
  unfold dev_read
  simp only [havail, hcond, if_false, hsz, hmem, copy_to_user, Nat.zero_min, Nat.sub_zero, hout]

/-- Every `dev_read` call returns the `message_size` it leaves. -/
theorem dev_read_ret_eq_size (beyond : Nat → Byte) (fault : Nat) (s : State)
    (buffer : List Byte) (len : Nat) :
    (dev_read beyond fault s buffer len).ret
      = (dev_read beyond fault s buffer len).state.message_size := by
  unfold dev_read
  simp only
  split <;> rfl

/-- `dev_write` keeps the length invariant. -/
theorem dev_write_wellFormed (s : State) (buffer : List Byte) (len : Nat)
    (hwf : WellFormed s) (hlen : len ≤ MAX_RW_COUNT) : WellFormed (dev_write s buffer len).1 := by
  have hL : strlen s.message ≤ BUFFER_SIZE := hwf.1 ▸ strlen_le s.message
  by_cases hfit : strlen s.message + strnlen buffer len ≤ BUFFER_SIZE
  · rw [dev_write_fits_eq s buffer len hwf hlen hfit]
    have hnn : strnlen buffer (strnlen buffer len) = strnlen buffer len :=
      strnlen_of_le buffer len _ (le_refl _)
    have := strncat_strlen s.message buffer (strnlen buffer len) (by rw [hnn, hwf.1]; exact hfit)
    rw [hnn] at this
    exact ⟨by simp only [strncat_length, hwf.1], by simp only [this]⟩
  · have hover : BUFFER_SIZE < strlen s.message + strnlen buffer len := by omega
    have hk : BUFFER_SIZE - strlen s.message ≤ buffer.length :=
      le_trans (by omega) (strnlen_le_length buffer len)
    have hk2 : strnlen buffer (BUFFER_SIZE - strlen s.message) = BUFFER_SIZE - strlen s.message :=
      strnlen_of_le buffer len _ (by omega)
    rw [dev_write_overflow_eq s buffer len hwf hlen hover]
    have hnz : ∀ b ∈ s.message.take (strlen s.message)
        ++ buffer.take (BUFFER_SIZE - strlen s.message), b ≠ 0 := by
      intro b hb
      rcases List.mem_append.1 hb with hb | hb
      · exact take_strlen_nonzero s.message b hb
      · rw [← hk2] at hb
        exact take_strnlen_nonzero buffer _ b hb
    have hlen2 : (s.message.take (strlen s.message)
        ++ buffer.take (BUFFER_SIZE - strlen s.message)).length = BUFFER_SIZE := by
      rw [List.length_append, List.length_take, List.length_take, hwf.1]
      omega
    refine ⟨hlen2, ?_⟩
    simp only
    rw [strlen_all_nonzero _ hnz, hlen2]

theorem wellFormed_init : WellFormed init :=
  ⟨by simp [init], by simp [init, strlen_replicate_zero]⟩

theorem wellFormed_helloState : WellFormed helloState :=
  dev_write_wellFormed init hello 5 wellFormed_init (by decide)

theorem wellFormed_nearlyFull : WellFormed nearlyFull := by
  have hs : strlen (List.replicate (BUFFER_SIZE - 3) (65 : Byte) ++ List.replicate 3 0)
      = BUFFER_SIZE - 3 := by
    rw [strlen_append _ _ (fun b hb => by rw [List.eq_of_mem_replicate hb]; decide),
      strlen_replicate_zero, List.length_replicate, Nat.add_zero]
  constructor
  · simp only [nearlyFull, List.length_append, List.length_replicate]
    decide
  · simp only [nearlyFull]
    rw [hs]

/-- Claim C5 (acquire as a single step): `dev_open` returns 0 if and only if
`isOpen` was 0 before the call, and then only `isOpen` changes, to 1;
otherwise it returns `-EBUSY` and the whole state is unchanged. -/
theorem claim_C5_dev_open_step (s : State) :
    ((dev_open s).2 = 0 ↔ s.isOpen = 0) ∧
    (s.isOpen = 0 → (dev_open s).1 = { s with isOpen := 1 }) ∧
    (s.isOpen ≠ 0 → (dev_open s).2 = -EBUSY ∧ (dev_open s).1 = s) := by
  by_cases h : s.isOpen = 0
  · simp [dev_open, h]
  · simp [dev_open, h, EBUSY]

/-- Claim C6 (release is unconditional and idempotent): in every state
`dev_release` returns 0 and leaves `isOpen = 0`, a second `dev_release` changes
nothing more, and `message` and `message_size` are unchanged. -/
theorem claim_C6_dev_release (s : State) :
    (dev_release s).2 = 0 ∧
    (dev_release s).1.isOpen = 0 ∧
    dev_release (dev_release s).1 = dev_release s ∧
    (dev_release s).1.message = s.message ∧
    (dev_release s).1.message_size = s.message_size := by
  simp [dev_release]

/-- Claim C9 (receive, full-drain case): with `probe = strnlen buffer len` and
`availableSpace = len - probe`, on a state whose `message_size = L` is at most
`availableSpace`, `dev_read` with a transfer that succeeds returns 0, writes the
`L` buffered bytes to the start of the output area and leaves the rest of it as
it was, and leaves the buffer empty: every byte of `message` zero and
`message_size = 0`. -/
theorem claim_C9_full_drain (beyond : Nat → Byte) (s : State) (buffer : List Byte)
    (len L : Nat) (hlength : s.message.length = BUFFER_SIZE)
    (hL : s.message_size = (L : Int)) (hcap : L ≤ BUFFER_SIZE)
    (hlen : len ≤ MAX_RW_COUNT) (hbuf : len ≤ buffer.length)
    (hfit : L ≤ len - strnlen buffer len) :
    (dev_read beyond 0 s buffer len).ret = 0 ∧
    (dev_read beyond 0 s buffer len).buffer.take L = s.message.take L ∧
    (dev_read beyond 0 s buffer len).buffer.drop L = buffer.drop L ∧
    (dev_read beyond 0 s buffer len).state.message = List.replicate BUFFER_SIZE 0 ∧
    (dev_read beyond 0 s buffer len).state.message_size = 0 := by
  have hl : (s.message.take L).length = L := by
    rw [List.length_take, hlength]
    omega
  rw [dev_read_drain_eq beyond s buffer len hlength (by omega) (by omega) hlen hbuf
    (by rw [hL]; exact_mod_cast hfit)]
  simp only [hL, Int.toNat_ofNat]
  refine ⟨trivial, ?_, ?_, trivial, trivial⟩
  · exact List.take_left' hl
  · exact List.drop_left' hl

/-- Claim C9 at the buffer holding "HELLO" and an output area of eight zero bytes. -/
theorem claim_C9_full_drain_witness :
    (dev_read zeroBeyond 0 helloState (List.replicate 8 0) 8).ret = 0 ∧
    (dev_read zeroBeyond 0 helloState (List.replicate 8 0) 8).buffer.take 5
      = helloState.message.take 5 ∧
    (dev_read zeroBeyond 0 helloState (List.replicate 8 0) 8).buffer.drop 5
      = (List.replicate 8 0).drop 5 ∧
    (dev_read zeroBeyond 0 helloState (List.replicate 8 0) 8).state.message
      = List.replicate BUFFER_SIZE 0 ∧
    (dev_read zeroBeyond 0 helloState (List.replicate 8 0) 8).state.message_size = 0 :=
  claim_C9_full_drain zeroBeyond helloState (List.replicate 8 0) 8 5
    wellFormed_helloState.1 (by decide) (by decide) (by decide) (by decide) (by decide)

/-- Claim C1 (round trip): from the empty buffer (`message` all zero,
`message_size = 0`), for every byte sequence `s` of at most `BUFFER_SIZE`
bytes, `dev_write(s, length s)` followed by `dev_read` with
`len = BUFFER_SIZE` into an output area whose first byte is zero returns 0,
leaves at the start of the output area `s` truncated at its first zero byte
(all of `s` if it has none), and leaves the buffer empty. -/
theorem claim_C1_round_trip (beyond : Nat → Byte) (e : State) (s out : List Byte)
    (hmsg : e.message = List.replicate BUFFER_SIZE 0) (hsize : e.message_size = 0)
    (hs : s.length ≤ BUFFER_SIZE) (hout : BUFFER_SIZE ≤ out.length)
    (hprobe : out.head? = some 0) :
    (dev_read beyond 0 (dev_write e s s.length).1 out BUFFER_SIZE).ret = 0 ∧
    (dev_read beyond 0 (dev_write e s s.length).1 out BUFFER_SIZE).buffer
      = s.takeWhile (fun b => decide (b ≠ 0))
          ++ out.drop (s.takeWhile (fun b => decide (b ≠ 0))).length ∧
    (dev_read beyond 0 (dev_write e s s.length).1 out BUFFER_SIZE).state.message
      = List.replicate BUFFER_SIZE 0 ∧
    (dev_read beyond 0 (dev_write e s s.length).1 out BUFFER_SIZE).state.message_size = 0 := by
  have hB : BUFFER_SIZE ≤ MAX_RW_COUNT := by decide
  have hL : strlen e.message = 0 := by rw [hmsg, strlen_replicate_zero]
  have hwf : WellFormed e := ⟨by rw [hmsg, List.length_replicate], by rw [hsize, hL]; rfl⟩
  have hn : strnlen s s.length = strlen s := strnlen_length s
  have hle : strlen s ≤ BUFFER_SIZE := le_trans (strlen_le s) hs
  have hfit : strlen e.message + strnlen s s.length ≤ BUFFER_SIZE := by omega
  have hnn : strnlen s (strlen s) = strlen s := by
    have := strnlen_of_le s s.length (strlen s) (by omega)
    exact this
  have hprobe0 : strnlen out BUFFER_SIZE = 0 := by
    cases out with
    | nil => simp at hprobe
    | cons x xs =>
      have hx : x = 0 := by simpa using hprobe
      simp [BUFFER_SIZE, strnlen, hx]
  have htake := strncat_take e.message s (strlen s) (by rw [hnn, hwf.1]; omega)
  rw [hnn, hL, Nat.zero_add, List.take_zero, List.nil_append] at htake
  have hw := dev_write_fits_eq e s s.length hwf (le_trans hs hB) hfit
  rw [hn, hL, Nat.zero_add] at hw
  have hlen : (s.take (strlen s)).length = strlen s := by
    rw [List.length_take]
    exact Nat.min_eq_left (strlen_le s)
  rw [hw, dev_read_drain_eq beyond _ out BUFFER_SIZE
    (by simp only [strncat_length, hwf.1]) (by simp only; omega) (by simp only; omega)
    hB hout (by simp only [hprobe0]; omega)]
  simp only [Int.toNat_ofNat, htake, ← take_strlen_eq_takeWhile, hlen]
  exact ⟨trivial, trivial, trivial, trivial⟩

/-- Claim C1 for the input "HELLO" and an output area of `BUFFER_SIZE` zero bytes. -/
theorem claim_C1_round_trip_witness :
    (dev_read zeroBeyond 0 (dev_write init hello hello.length).1
      (List.replicate BUFFER_SIZE 0) BUFFER_SIZE).ret = 0 ∧
    (dev_read zeroBeyond 0 (dev_write init hello hello.length).1
      (List.replicate BUFFER_SIZE 0) BUFFER_SIZE).buffer
      = hello.takeWhile (fun b => decide (b ≠ 0))
          ++ (List.replicate BUFFER_SIZE 0).drop (hello.takeWhile (fun b => decide (b ≠ 0))).length ∧
    (dev_read zeroBeyond 0 (dev_write init hello hello.length).1
      (List.replicate BUFFER_SIZE 0) BUFFER_SIZE).state.message
      = List.replicate BUFFER_SIZE 0 ∧
    (dev_read zeroBeyond 0 (dev_write init hello hello.length).1
      (List.replicate BUFFER_SIZE 0) BUFFER_SIZE).state.message_size = 0 :=
  claim_C1_round_trip zeroBeyond init hello (List.replicate BUFFER_SIZE 0) rfl rfl
    (by decide) (by rw [List.length_replicate]) (by decide)

/-- Claim C2 evaluated at a failing input: the buffer holds the `L = 5` bytes
"HELLO" and `dev_read` is called with `len = 2` on an output area of two zero
bytes (`probe = 0`, `availableSpace = 2`). The call delivers "HE" and returns
2, not `L - A = 3`; the buffer content becomes "LL", not "LLO"; and a second
`dev_read` with room for eight bytes returns 0 after delivering "LL" only. -/
theorem claim_C2_partial_receive_drops_bytes :
    WellFormed helloState ∧ helloState.message_size = 5 ∧ content helloState = hello ∧
    strnlen [0, 0] 2 = 0 ∧
    (dev_read zeroBeyond 0 helloState [0, 0] 2).ret = 2 ∧
    (dev_read zeroBeyond 0 helloState [0, 0] 2).ret ≠ helloState.message_size - 2 ∧
    (dev_read zeroBeyond 0 helloState [0, 0] 2).buffer = [72, 69] ∧
    content (dev_read zeroBeyond 0 helloState [0, 0] 2).state = [76, 76] ∧
    content (dev_read zeroBeyond 0 helloState [0, 0] 2).state ≠ (content helloState).drop 2 ∧
    (dev_read zeroBeyond 0 (dev_read zeroBeyond 0 helloState [0, 0] 2).state
      (List.replicate 8 0) 8).ret = 0 ∧
    (dev_read zeroBeyond 0 (dev_read zeroBeyond 0 helloState [0, 0] 2).state
      (List.replicate 8 0) 8).buffer = [76, 76, 0, 0, 0, 0, 0, 0] := by
  refine ⟨wellFormed_helloState, ?_, ?_, ?_, ?_, ?_, ?_, ?_, ?_, ?_, ?_⟩ <;> decide

/-- Claim C10 evaluated at a failing input: the buffer holds "HELLO" and
`dev_read` is called with `len = 1` on an output area whose one byte is not
zero (`probe = 1`, `availableSpace = 0 < message_size`). The call takes the
partial branch, delivers nothing, returns 0 and leaves `message_size = 0`:
the five buffered bytes are gone undelivered. -/
theorem claim_C10_zero_return_undelivered :
    WellFormed helloState ∧ helloState.message_size = 5 ∧
    strnlen [120] 1 = 1 ∧
    helloState.message_size > toInt32 (((1 : Nat) : Int) - ((strnlen [120] 1 : Nat) : Int)) ∧
    (dev_read zeroBeyond 0 helloState [120] 1).ret = 0 ∧
    ¬ (0 < (dev_read zeroBeyond 0 helloState [120] 1).ret) ∧
    (dev_read zeroBeyond 0 helloState [120] 1).buffer = [120] ∧
    (dev_read zeroBeyond 0 helloState [120] 1).state.message_size = 0 ∧
    content (dev_read zeroBeyond 0 helloState [120] 1).state = [] := by
  refine ⟨wellFormed_helloState, ?_, ?_, ?_, ?_, ?_, ?_, ?_, ?_⟩ <;> decide

/-! ## The shift loop of `dev_read` -/

theorem strlen_le_of_zero (x : List Byte) (k : Nat) (h : x[k]? = some 0) : strlen x ≤ k := by
  induction x generalizing k with
  | nil => simp [strlen]
  | cons b bs ih =>
    cases k with
    | zero =>
      have hb : b = 0 := by simpa using h
      simp [strlen, hb]
    | succ j =>
      have := ih j (by simpa using h)
      simp only [strlen]
      split <;> omega

theorem le_strlen_of_nonzero (x : List Byte) (k : Nat)
    (h : ∀ j, j < k → ∃ b, x[j]? = some b ∧ b ≠ 0) : k ≤ strlen x := by
  induction x generalizing k with
  | nil =>
    cases k with
    | zero => simp
    | succ j =>
      obtain ⟨b, hb, _⟩ := h 0 (by omega)
      simp at hb
  | cons c cs ih =>
    cases k with
    | zero => simp
    | succ j =>
      obtain ⟨b, hb, hb0⟩ := h 0 (by omega)
      have hc : c ≠ 0 := by
        have : c = b := by simpa using hb
        rw [this]
        exact hb0
      have := ih j (fun i hi => by
        obtain ⟨b2, h2, h3⟩ := h (i + 1) (by omega)
        exact ⟨b2, by simpa using h2, h3⟩)
      simp only [strlen, hc, if_false]
      omega

theorem strlen_getElem?_nonzero (m : List Byte) (j : Nat) (h : j < strlen m) :
    ∃ b, m[j]? = some b ∧ b ≠ 0 := by
  induction m generalizing j with
  | nil => simp [strlen] at h
  | cons c cs ih =>
    by_cases hc : c = 0
    · simp [strlen, hc] at h
    · cases j with
      | zero => exact ⟨c, by simp, hc⟩
      | succ i =>
        simp only [strlen, hc, if_false] at h
        obtain ⟨b, hb, hb0⟩ := ih i (by omega)
        exact ⟨b, by simpa using hb, hb0⟩

theorem strlen_getElem?_zero (m : List Byte) (h : strlen m < m.length) :
    m[strlen m]? = some 0 := by
  induction m with
  | nil => simp at h
  | cons c cs ih =>
    by_cases hc : c = 0
    · simp [strlen, hc]
    · simp only [strlen, hc, if_false, List.length_cons] at h ⊢
      simpa using ih (by omega)

theorem load_of_lt (beyond : Nat → Byte) (m : List Byte) (j : Nat) (b : Byte)
    (h : m[j]? = some b) : load beyond m j = b := by
  simp [load, List.getD_eq_getElem?_getD, h]

theorem shiftLoop_length (beyond : Nat → Byte) (avail i todo : Nat) (m : List Byte) :
    (shiftLoop beyond avail i todo m).length = m.length := by
  induction todo generalizing i m with
  | zero => rfl
  | succ k ih => simp [shiftLoop, ih]

/-- What the shift loop leaves at index `j`: the byte loaded from `j + avail`
for the indices it has assigned, the old byte elsewhere. -/
theorem shiftLoop_getElem? (beyond : Nat → Byte) (avail i todo : Nat) (m : List Byte)
    (h : i + todo ≤ avail) (j : Nat) :
    (shiftLoop beyond avail i todo m)[j]? =
      if i ≤ j ∧ j < i + todo ∧ j < m.length then some (load beyond m (j + avail))
      else m[j]? := by
  induction todo generalizing i m with
  | zero =>
    have : ¬ (i ≤ j ∧ j < i + 0 ∧ j < m.length) := by omega
    rw [if_neg this]
    rfl
  | succ k ih =>
    simp only [shiftLoop]
    rw [ih (i + 1) _ (by omega), List.length_set]
    by_cases hij : i = j
    · subst hij
      have h1 : ¬ (i + 1 ≤ i ∧ i < i + 1 + k ∧ i < m.length) := by omega
      rw [if_neg h1, List.getElem?_set]
      by_cases hl : i < m.length
      · have h2 : i ≤ i ∧ i < i + (k + 1) ∧ i < m.length := ⟨le_refl _, by omega, hl⟩
        simp [hl, h2]
      · have h2 : ¬ (i ≤ i ∧ i < i + (k + 1) ∧ i < m.length) := by omega
        have h3 : m[i]? = none := List.getElem?_eq_none (by omega)
        simp [hl, h2, h3]
    · have hload : ∀ q, i < q → load beyond (m.set i (load beyond m (i + avail))) (q + avail)
          = load beyond m (q + avail) := by
        intro q hq
        simp only [load, List.getD_eq_getElem?_getD]
        rw [List.getElem?_set_ne (by omega)]
      by_cases hc : i + 1 ≤ j ∧ j < i + 1 + k ∧ j < m.length
      · have hc2 : i ≤ j ∧ j < i + (k + 1) ∧ j < m.length := by omega
        rw [if_pos hc, if_pos hc2, hload j (by omega)]
      · have hc2 : ¬ (i ≤ j ∧ j < i + (k + 1) ∧ j < m.length) := by omega
        rw [if_neg hc, if_neg hc2, List.getElem?_set_ne hij]

/-- The array after the shift loop and the terminator store of line 108, read
at index `j`, when the terminator index `avail` lies inside the array. -/
theorem shifted_getElem? (beyond : Nat → Byte) (m : List Byte) (avail : Nat)
    (h : avail < m.length) (j : Nat) :
    ((shiftLoop beyond avail 0 avail m).set avail 0)[j]? =
      if j = avail then some 0
      else if j < avail then some (load beyond m (j + avail)) else m[j]? := by
  rw [List.getElem?_set, shiftLoop_length, shiftLoop_getElem? beyond avail 0 avail m (by omega)]
  by_cases h1 : avail = j
  · subst h1
    simp [h]
  · have h2 : ¬ j = avail := fun e => h1 e.symm
    rw [if_neg h1, if_neg h2]
    by_cases h3 : j < avail
    · have h4 : 0 ≤ j ∧ j < 0 + avail ∧ j < m.length := by omega
      rw [if_pos h4, if_pos h3]
    · have h4 : ¬ (0 ≤ j ∧ j < 0 + avail ∧ j < m.length) := by omega
      rw [if_neg h4, if_neg h3]

theorem shifted_length (beyond : Nat → Byte) (m : List Byte) (avail : Nat) :
    ((shiftLoop beyond avail 0 avail m).set avail 0).length = m.length := by
  rw [List.length_set, shiftLoop_length]

/-- After the shift the string is no longer than `avail`. -/
theorem shifted_strlen_le (beyond : Nat → Byte) (m : List Byte) (avail : Nat)
    (h : avail < m.length) : strlen ((shiftLoop beyond avail 0 avail m).set avail 0) ≤ avail := by
  apply strlen_le_of_zero
  rw [shifted_getElem? beyond m avail h]
  simp

/-- The length of the string the shift leaves: `min (L - avail) avail`, when
the old terminator lies inside the array or every load does. -/
theorem shifted_strlen (beyond : Nat → Byte) (m : List Byte) (avail : Nat)
    (hA : avail < strlen m) (hcase : strlen m < m.length ∨ 2 * avail ≤ m.length) :
    strlen ((shiftLoop beyond avail 0 avail m).set avail 0) = min (strlen m - avail) avail := by
  have hL := strlen_le m
  have hAl : avail < m.length := by omega
  apply le_antisymm
  · apply Nat.le_min.2
    refine ⟨?_, shifted_strlen_le beyond m avail hAl⟩
    by_cases hlt : strlen m - avail < avail
    · have hLl : strlen m < m.length := by omega
      apply strlen_le_of_zero
      rw [shifted_getElem? beyond m avail hAl, if_neg (by omega), if_pos hlt]
      have e : strlen m - avail + avail = strlen m := by omega
      rw [e, load_of_lt beyond m _ 0 (strlen_getElem?_zero m hLl)]
    · exact le_trans (shifted_strlen_le beyond m avail hAl) (by omega)
  · apply le_strlen_of_nonzero
    intro j hj
    have hj1 : j < strlen m - avail := lt_of_lt_of_le hj (Nat.min_le_left _ _)
    have hj2 : j < avail := lt_of_lt_of_le hj (Nat.min_le_right _ _)
    obtain ⟨b, hb, hb0⟩ := strlen_getElem?_nonzero m (j + avail) (by omega)
    refine ⟨b, ?_, hb0⟩
    rw [shifted_getElem? beyond m avail hAl, if_neg (by omega), if_pos hj2,
      load_of_lt beyond m _ b hb]

/-- The first bytes the shift leaves are the old bytes from index `avail` on. -/
theorem shifted_take (beyond : Nat → Byte) (m : List Byte) (avail k : Nat)
    (hA : avail < strlen m) (hk1 : k ≤ strlen m - avail) (hk2 : k ≤ avail) :
    ((shiftLoop beyond avail 0 avail m).set avail 0).take k = (m.drop avail).take k := by
  have hL := strlen_le m
  have hAl : avail < m.length := by omega
  apply List.ext_getElem?
  intro j
  rw [List.getElem?_take, List.getElem?_take]
  by_cases hj : j < k
  · rw [if_pos hj, if_pos hj, shifted_getElem? beyond m avail hAl, if_neg (by omega),
      if_pos (by omega), List.getElem?_drop]
    obtain ⟨b, hb, _⟩ := strlen_getElem?_nonzero m (j + avail) (by omega)
    rw [load_of_lt beyond m _ b hb, Nat.add_comm avail j, hb]
  · rw [if_neg hj, if_neg hj]

/-- The partial branch of `dev_read` (lines 98-111). -/
theorem dev_read_partial_eq (beyond : Nat → Byte) (fault : Nat) (s : State)
    (buffer : List Byte) (len : Nat) (hlength : s.message.length = BUFFER_SIZE)
    (hlen : len ≤ MAX_RW_COUNT)
    (hpart : ((len - strnlen buffer len : Nat) : Int) < s.message_size) :
    dev_read beyond fault s buffer len =
      ⟨{ s with
          message := (shiftLoop beyond (len - strnlen buffer len) 0
            (len - strnlen buffer len) s.message).set (len - strnlen buffer len) 0,
          message_size := ((strlen ((shiftLoop beyond (len - strnlen buffer len) 0
            (len - strnlen buffer len) s.message).set (len - strnlen buffer len) 0) : Nat) : Int) },
        (copy_to_user fault buffer s.message (len - strnlen buffer len)).1,
        ((strlen ((shiftLoop beyond (len - strnlen buffer len) 0
            (len - strnlen buffer len) s.message).set (len - strnlen buffer len) 0) : Nat) : Int)⟩ := by
  have hprobe : strnlen buffer len ≤ len := strnlen_le_len buffer len
  have hbound := max_rw_count_bound
  have havail : toInt32 ((len : Int) - (strnlen buffer len : Int))
      = ((len - strnlen buffer len : Nat) : Int) := by
    rw [toInt32_of_le] <;> omega
  have hsz : toSizeT ((len - strnlen buffer len : Nat) : Int) = len - strnlen buffer len :=
    toSizeT_natCast _ (by omega)
  have hstr := strlen_le ((shiftLoop beyond (len - strnlen buffer len) 0
    (len - strnlen buffer len) s.message).set (len - strnlen buffer len) 0)
  rw [shifted_length, hlength] at hstr
  have h32 := @toInt32_of_le ((strlen ((shiftLoop beyond (len - strnlen buffer len) 0
    (len - strnlen buffer len) s.message).set (len - strnlen buffer len) 0) : Nat) : Int)
    (by omega) (by omega)
  unfold dev_read
  simp only [havail, gt_iff_lt, hpart, if_true, hsz, Int.toNat_ofNat, h32]

/-! ## The length invariant -/

/-- `dev_read` keeps the length invariant, whatever its arguments. -/
theorem dev_read_wellFormed (beyond : Nat → Byte) (fault : Nat) (s : State)
    (buffer : List Byte) (len : Nat) (hwf : WellFormed s) :
    WellFormed (dev_read beyond fault s buffer len).state := by
  have hB : BUFFER_SIZE ≤ INT_MAX := by decide
  unfold dev_read
  simp only
  split
  · have hl := shifted_length beyond s.message
      (toInt32 ((len : Int) - (strnlen buffer len : Int))).toNat
    have hstr := strlen_le ((shiftLoop beyond
      (toInt32 ((len : Int) - (strnlen buffer len : Int))).toNat 0
      (toInt32 ((len : Int) - (strnlen buffer len : Int))).toNat s.message).set
      (toInt32 ((len : Int) - (strnlen buffer len : Int))).toNat 0)
    rw [hl, hwf.1] at hstr
    refine ⟨by simp only [hl, hwf.1], ?_⟩
    simp only
    rw [toInt32_of_le (by omega) (by omega)]
  · have hmem : memset s.message 0 BUFFER_SIZE = List.replicate BUFFER_SIZE 0 := by
      have := memset_all s.message 0
      rw [hwf.1] at this
      exact this
    refine ⟨by simp only [hmem, List.length_replicate], ?_⟩
    simp only [hmem, strlen_replicate_zero]
    rfl

/-- Claim C11 as stated fails: on the empty buffer the six-byte input
`'A' 'B' 0 'D' 'E' 'F'` written with `len = 6` makes `dev_write` return 2, not 6. -/
theorem claim_C11_counterexample :
    init.message = List.replicate BUFFER_SIZE 0 ∧ init.message_size = 0 ∧
    embeddedZero.length = 6 ∧ embeddedZero.length ≤ BUFFER_SIZE ∧
    (dev_write init embeddedZero embeddedZero.length).2 = 2 ∧
    (dev_write init embeddedZero embeddedZero.length).2 ≠ (embeddedZero.length : Int) := by
  refine ⟨rfl, rfl, rfl, ?_, ?_, ?_⟩ <;> decide

/-- Claim C11 (send return value on an empty buffer), amended: for every byte
sequence `s` of at most `BUFFER_SIZE` bytes, `dev_write(s, length s)` on the
empty buffer returns the number of bytes of `s` before its first zero byte;
that is `length s` when `s` holds no zero byte. -/
theorem claim_C11_send_return_empty (e : State) (s : List Byte)
    (hmsg : e.message = List.replicate BUFFER_SIZE 0) (hsize : e.message_size = 0)
    (hs : s.length ≤ BUFFER_SIZE) :
    (dev_write e s s.length).2 = ((s.takeWhile (fun b => decide (b ≠ 0))).length : Int) ∧
    ((∀ b ∈ s, b ≠ 0) → (dev_write e s s.length).2 = (s.length : Int)) := by
  have hB : BUFFER_SIZE ≤ MAX_RW_COUNT := by decide
  have hL : strlen e.message = 0 := by rw [hmsg, strlen_replicate_zero]
  have hwf : WellFormed e := ⟨by rw [hmsg, List.length_replicate], by rw [hsize, hL]; rfl⟩
  have hn : strnlen s s.length = strlen s := strnlen_length s
  have hle : strlen s ≤ BUFFER_SIZE := le_trans (strlen_le s) hs
  have hw := dev_write_fits_eq e s s.length hwf (le_trans hs hB) (by omega)
  have hlen : (s.takeWhile (fun b => decide (b ≠ 0))).length = strlen s := by
    rw [← take_strlen_eq_takeWhile, List.length_take]
    exact Nat.min_eq_left (strlen_le s)
  rw [hw, hn, hlen]
  refine ⟨rfl, ?_⟩
  intro hnz
  rw [strlen_all_nonzero s hnz]

/-- Claim C11, amended, for the input "HELLO" on the initial state. -/
theorem claim_C11_send_return_empty_witness :
    (dev_write init hello hello.length).2
      = ((hello.takeWhile (fun b => decide (b ≠ 0))).length : Int) ∧
    ((∀ b ∈ hello, b ≠ 0) → (dev_write init hello hello.length).2 = (hello.length : Int)) :=
  claim_C11_send_return_empty init hello rfl rfl (by decide)

/-- The state and return value of the full-drain branch of `dev_read`,
whatever the transfer does. -/
theorem dev_read_drain_state (beyond : Nat → Byte) (fault : Nat) (s : State)
    (buffer : List Byte) (len : Nat) (hlength : s.message.length = BUFFER_SIZE)
    (hlen : len ≤ MAX_RW_COUNT)
    (hfit : s.message_size ≤ ((len - strnlen buffer len : Nat) : Int)) :
    (dev_read beyond fault s buffer len).state
        = { s with message := List.replicate BUFFER_SIZE 0, message_size := 0 } ∧
    (dev_read beyond fault s buffer len).ret = 0 := by
  have hprobe : strnlen buffer len ≤ len := strnlen_le_len buffer len
  have hbound := max_rw_count_bound
  have havail : toInt32 ((len : Int) - (strnlen buffer len : Int))
      = ((len - strnlen buffer len : Nat) : Int) := by
    rw [toInt32_of_le] <;> omega
  have hcond : ¬ (s.message_size > ((len - strnlen buffer len : Nat) : Int)) := by omega
  have hmem : memset s.message 0 BUFFER_SIZE = List.replicate BUFFER_SIZE 0 := by
    have := memset_all s.message 0
    rw [hlength] at this
    exact this
  unfold dev_read
  simp only [havail, hcond, if_false, hmem, and_self]

/-- Claim C14 evaluated at a failing input: the buffer holds "HELLO" and
`dev_read` is called with `len = 3` on an output area of three zero bytes
(`availBufferSpace = 3 < message_size`). The call transfers the three
characters "HEL" and leaves "LO" in the buffer, so the whole message was not
read, but it returns 2, the number of characters left, not 3, the number of
characters read. -/
theorem claim_C14_returns_remaining_not_read :
    WellFormed helloState ∧ helloState.message_size = 5 ∧
    strnlen [0, 0, 0] 3 = 0 ∧
    (dev_read zeroBeyond 0 helloState [0, 0, 0] 3).buffer = [72, 69, 76] ∧
    content (dev_read zeroBeyond 0 helloState [0, 0, 0] 3).state = [76, 79] ∧
    (dev_read zeroBeyond 0 helloState [0, 0, 0] 3).ret = 2 ∧
    (dev_read zeroBeyond 0 helloState [0, 0, 0] 3).ret ≠ 3 ∧
    (dev_read zeroBeyond 0 helloState [0, 0, 0] 3).ret ≠ 0 := by
  refine ⟨wellFormed_helloState, ?_, ?_, ?_, ?_, ?_, ?_, ?_⟩ <;> decide

/-- Claim C15 (transfer faults are ignored): whatever number of bytes
`copy_to_user` fails to copy, `dev_read` returns the same value and leaves the
same state; and in the full-drain case it returns 0 and clears the buffer
whether or not the transfer succeeded. -/
theorem claim_C15_transfer_faults_ignored (beyond : Nat → Byte) (fault1 fault2 : Nat)
    (s : State) (buffer : List Byte) (len : Nat)
    (hlength : s.message.length = BUFFER_SIZE) (hlen : len ≤ MAX_RW_COUNT) :
    (dev_read beyond fault1 s buffer len).ret = (dev_read beyond fault2 s buffer len).ret ∧
    (dev_read beyond fault1 s buffer len).state = (dev_read beyond fault2 s buffer len).state ∧
    (s.message_size ≤ ((len - strnlen buffer len : Nat) : Int) →
      (dev_read beyond fault1 s buffer len).ret = 0 ∧
      (dev_read beyond fault1 s buffer len).state.message = List.replicate BUFFER_SIZE 0 ∧
      (dev_read beyond fault1 s buffer len).state.message_size = 0) := by
  refine ⟨?_, ?_, ?_⟩
  · unfold dev_read
    simp only
    split <;> rfl
  · unfold dev_read
    simp only
    split <;> rfl
  · intro hfit
    obtain ⟨hst, hret⟩ := dev_read_drain_state beyond fault1 s buffer len hlength hlen hfit
    rw [hst, hret]
    exact ⟨rfl, rfl, rfl⟩

/-- Claim C15 on the buffer holding "HELLO", for a transfer that fails on all
bytes against one that succeeds, in the full-drain case. -/
theorem claim_C15_transfer_faults_ignored_witness :
    (dev_read zeroBeyond 8 helloState (List.replicate 8 0) 8).ret
      = (dev_read zeroBeyond 0 helloState (List.replicate 8 0) 8).ret ∧
    (dev_read zeroBeyond 8 helloState (List.replicate 8 0) 8).state
      = (dev_read zeroBeyond 0 helloState (List.replicate 8 0) 8).state ∧
    (helloState.message_size
        ≤ ((8 - strnlen (List.replicate 8 (0 : Byte)) 8 : Nat) : Int) →
      (dev_read zeroBeyond 8 helloState (List.replicate 8 0) 8).ret = 0 ∧
      (dev_read zeroBeyond 8 helloState (List.replicate 8 0) 8).state.message
        = List.replicate BUFFER_SIZE 0 ∧
      (dev_read zeroBeyond 8 helloState (List.replicate 8 0) 8).state.message_size = 0) :=
  claim_C15_transfer_faults_ignored zeroBeyond 8 0 helloState (List.replicate 8 0) 8
    wellFormed_helloState.1 (by decide)

/-- Claim C16 (actual size after a partial receive): on a state that satisfies
the length invariant with `message_size = L`, for a `dev_read` call with
`availableSpace = A < L` such that `L < BUFFER_SIZE` or `2 * A ≤ BUFFER_SIZE`,
the new `message_size` and the value returned are `min (L - A) A`, and the new
content is the old bytes at the positions `A .. A + min (L - A) A - 1`; with
`A = 0` the buffer is emptied and 0 is returned while the output area is left
as it was. -/
theorem claim_C16_partial_size (beyond : Nat → Byte) (fault : Nat) (s : State)
    (buffer : List Byte) (len : Nat)
    (hwf : WellFormed s) (hlen : len ≤ MAX_RW_COUNT) (hbuf : len ≤ buffer.length)
    (hA : ((len - strnlen buffer len : Nat) : Int) < s.message_size)
    (hcase : s.message_size < (BUFFER_SIZE : Int) ∨ 2 * (len - strnlen buffer len) ≤ BUFFER_SIZE) :
    (dev_read beyond fault s buffer len).state.message_size
      = min (s.message_size - ((len - strnlen buffer len : Nat) : Int))
          ((len - strnlen buffer len : Nat) : Int) ∧
    (dev_read beyond fault s buffer len).ret
      = min (s.message_size - ((len - strnlen buffer len : Nat) : Int))
          ((len - strnlen buffer len : Nat) : Int) ∧
    content (dev_read beyond fault s buffer len).state
      = (s.message.drop (len - strnlen buffer len)).take
          (min (s.message_size.toNat - (len - strnlen buffer len)) (len - strnlen buffer len)) ∧
    (len - strnlen buffer len = 0 →
      (dev_read beyond fault s buffer len).ret = 0 ∧
      (dev_read beyond fault s buffer len).state.message_size = 0 ∧
      (dev_read beyond fault s buffer len).buffer = buffer) := by
  have _ := hbuf
  obtain ⟨hlength, hsize⟩ := hwf
  have hA2 : len - strnlen buffer len < strlen s.message := by
    rw [hsize] at hA
    exact_mod_cast hA
  have hcase2 : strlen s.message < s.message.length ∨ 2 * (len - strnlen buffer len) ≤ s.message.length := by
    rw [hlength]
    rcases hcase with h | h
    · left
      rw [hsize] at h
      exact_mod_cast h
    · right
      exact h
  have hstr := shifted_strlen beyond s.message (len - strnlen buffer len) hA2 hcase2
  have htake := shifted_take beyond s.message (len - strnlen buffer len)
    (min (strlen s.message - (len - strnlen buffer len)) (len - strnlen buffer len)) hA2
    (Nat.min_le_left _ _) (Nat.min_le_right _ _)
  have hmin : ((min (strlen s.message - (len - strnlen buffer len)) (len - strnlen buffer len) : Nat) : Int)
      = min ((strlen s.message : Int) - ((len - strnlen buffer len : Nat) : Int))
          ((len - strnlen buffer len : Nat) : Int) := by
    omega
  rw [dev_read_partial_eq beyond fault s buffer len hlength hlen hA]
  refine ⟨?_, ?_, ?_, ?_⟩
  · simp only [hstr, hmin, hsize]
  · simp only [hstr, hmin, hsize]
  · simp only [content, Int.toNat_ofNat, hstr, hsize]
    exact htake
  · intro h0
    simp only [hstr]
    rw [h0]
    simp [copy_to_user, storeAll]

/-- Claim C16 on the buffer holding "HELLO" with `availableSpace = 2`:
`message_size` becomes `min (5 - 2) 2`. -/
theorem claim_C16_partial_size_witness :
    (dev_read zeroBeyond 0 helloState [0, 0] 2).state.message_size
      = min (helloState.message_size - ((2 - strnlen [0, 0] 2 : Nat) : Int))
          ((2 - strnlen [0, 0] 2 : Nat) : Int) :=
  (claim_C16_partial_size zeroBeyond 0 helloState [0, 0] 2 wellFormed_helloState
    (by decide) (by decide) (by decide) (Or.inl (by decide))).1

/-- One `dev_read` call on a well-formed state leaves a string that is shorter
by at least one byte, or empty. -/
theorem dev_read_strlen_le (beyond : Nat → Byte) (fault : Nat) (s : State)
    (buffer : List Byte) (len : Nat) (hwf : WellFormed s) (hlen : len ≤ MAX_RW_COUNT) :
    strlen (dev_read beyond fault s buffer len).state.message ≤ strlen s.message - 1 := by
  obtain ⟨hlength, hsize⟩ := hwf
  have hL : strlen s.message ≤ BUFFER_SIZE := hlength ▸ strlen_le s.message
  by_cases hpart : ((len - strnlen buffer len : Nat) : Int) < s.message_size
  · have hA : len - strnlen buffer len < strlen s.message := by
      rw [hsize] at hpart
      exact_mod_cast hpart
    rw [dev_read_partial_eq beyond fault s buffer len hlength hlen hpart]
    have := shifted_strlen_le beyond s.message (len - strnlen buffer len) (by omega)
    simp only
    omega
  · rw [(dev_read_drain_state beyond fault s buffer len hlength hlen (by omega)).1]
    simp only [strlen_replicate_zero]
    omega

theorem run_reads_strlen_le (calls : List Call) (s : State) (hwf : WellFormed s)
    (hv : ∀ c ∈ calls, isRead c ∧ validCall c) :
    WellFormed (run s calls) ∧ strlen (run s calls).message ≤ strlen s.message - calls.length := by
  induction calls generalizing s with
  | nil => exact ⟨hwf, by simp [run]⟩
  | cons c cs ih =>
    have hc := hv c (List.mem_cons_self _ _)
    cases c with
    | write buffer len => exact absurd hc.1 (by simp [isRead])
    | read beyond fault buffer len =>
      have hstep := dev_read_strlen_le beyond fault s buffer len hwf hc.2.1
      have hwf2 := dev_read_wellFormed beyond fault s buffer len hwf
      obtain ⟨h1, h2⟩ := ih (dev_read beyond fault s buffer len).state hwf2
        (fun o ho => hv o (List.mem_cons_of_mem _ ho))
      refine ⟨h1, ?_⟩
      show strlen (run (dev_read beyond fault s buffer len).state cs).message ≤ _
      simp only [List.length_cons]
      omega

/-- Claim C17 (every receive shrinks a non-empty buffer): on a state that
satisfies the length invariant with `message_size > 0`, every `dev_read` call
leaves a strictly smaller `message_size`; hence every sequence of at least
`message_size` `dev_read` calls, with no `dev_write` among them, leaves
`message_size = 0`. -/
theorem claim_C17_receive_shrinks (beyond : Nat → Byte) (fault : Nat) (s : State)
    (buffer : List Byte) (len : Nat)
    (hwf : WellFormed s) (hpos : 0 < s.message_size)
    (hlen : len ≤ MAX_RW_COUNT) (hbuf : len ≤ buffer.length) :
    (dev_read beyond fault s buffer len).state.message_size < s.message_size ∧
    (∀ calls : List Call, (∀ c ∈ calls, isRead c ∧ validCall c) →
      s.message_size ≤ (calls.length : Int) → (run s calls).message_size = 0) := by
  have _ := hbuf
  have hsize := hwf.2
  constructor
  · have h1 := dev_read_strlen_le beyond fault s buffer len hwf hlen
    have h2 := (dev_read_wellFormed beyond fault s buffer len hwf).2
    rw [h2, hsize]
    rw [hsize] at hpos
    omega
  · intro calls hv hn
    obtain ⟨h1, h2⟩ := run_reads_strlen_le calls s hwf hv
    rw [h1.2]
    rw [hsize] at hn
    omega

/-- Claim C17 on the buffer holding "HELLO": a read of two bytes shrinks it. -/
theorem claim_C17_receive_shrinks_witness :
    (dev_read zeroBeyond 0 helloState [0, 0] 2).state.message_size < helloState.message_size :=
  (claim_C17_receive_shrinks zeroBeyond 0 helloState [0, 0] 2 wellFormed_helloState
    (by decide) (by decide) (by decide)).1

/-! ## The indices touched -/

theorem mem_shiftLoopLoads (avail i todo j : Nat) :
    j ∈ shiftLoopLoads avail i todo ↔ ∃ k, i ≤ k ∧ k < i + todo ∧ j = k + avail := by
  induction todo generalizing i with
  | zero =>
    simp only [shiftLoopLoads, List.not_mem_nil, false_iff]
    rintro ⟨k, h1, h2, _⟩
    omega
  | succ n ih =>
    simp only [shiftLoopLoads, List.mem_cons, ih]
    constructor
    · rintro (h | ⟨k, h1, h2, h3⟩)
      · exact ⟨i, le_refl _, by omega, h⟩
      · exact ⟨k, by omega, by omega, h3⟩
    · rintro ⟨k, h1, h2, h3⟩
      by_cases hk : k = i
      · left
        rw [h3, hk]
      · right
        exact ⟨k, by omega, by omega, h3⟩

theorem mem_storeIndices (i : Nat) (bs : List Byte) (j : Nat) :
    j ∈ storeIndices i bs ↔ i ≤ j ∧ j < i + bs.length := by
  induction bs generalizing i with
  | nil =>
    simp only [storeIndices, List.not_mem_nil, List.length_nil, false_iff]
    omega
  | cons b bs ih =>
    simp only [storeIndices, List.mem_cons, ih, List.length_cons]
    omega

theorem strlen_nearlyFull : strlen nearlyFull.message = BUFFER_SIZE - 3 := by
  have h2 := wellFormed_nearlyFull.2
  simp only [nearlyFull] at h2 ⊢
  exact_mod_cast h2.symm

/-- The terminator store of line 108 is inside the array on every well-formed state. -/
theorem dev_read_terminator_lt (s : State) (buffer : List Byte) (len t : Nat)
    (hwf : WellFormed s) (hlen : len ≤ MAX_RW_COUNT)
    (h : dev_read_terminator s buffer len = some t) : t < BUFFER_SIZE := by
  obtain ⟨hlength, hsize⟩ := hwf
  have hL : strlen s.message ≤ BUFFER_SIZE := hlength ▸ strlen_le s.message
  have hprobe : strnlen buffer len ≤ len := strnlen_le_len buffer len
  have hbound := max_rw_count_bound
  have havail : toInt32 ((len : Int) - (strnlen buffer len : Int))
      = ((len - strnlen buffer len : Nat) : Int) := by
    rw [toInt32_of_le] <;> omega
  unfold dev_read_terminator at h
  simp only [havail, Int.toNat_ofNat, hsize] at h
  split at h
  · have e : len - strnlen buffer len = t := by simpa using h
    omega
  · simp at h

/-- The stores of `dev_write` on a well-formed state reach index `BUFFER_SIZE`
at most: one byte past the array. -/
theorem dev_write_stores_le (s : State) (buffer : List Byte) (len : Nat)
    (hwf : WellFormed s) (hlen : len ≤ MAX_RW_COUNT) :
    ∀ j ∈ dev_write_stores s buffer len, j ≤ BUFFER_SIZE := by
  obtain ⟨hlength, hsize⟩ := hwf
  have hL : strlen s.message ≤ BUFFER_SIZE := hlength ▸ strlen_le s.message
  have hbound := max_rw_count_bound
  have hB : BUFFER_SIZE ≤ INT_MAX := by decide
  have hn : strnlen buffer len ≤ MAX_RW_COUNT := le_trans (strnlen_le_len buffer len) hlen
  have hsum : toInt32 (s.message_size + (strnlen buffer len : Int))
      = ((strlen s.message + strnlen buffer len : Nat) : Int) := by
    rw [hsize, toInt32_of_le (by omega) (by omega)]
    omega
  have havail : toInt32 ((BUFFER_SIZE : Int) - s.message_size)
      = ((BUFFER_SIZE - strlen s.message : Nat) : Int) := by
    rw [hsize, toInt32_of_le (by omega) (by omega)]
    omega
  intro j hj
  unfold dev_write_stores at hj
  simp only [hsum, havail, toSizeT_natCast _ (show strnlen buffer len ≤ INT_MAX by omega),
    toSizeT_natCast _ (show BUFFER_SIZE - strlen s.message ≤ INT_MAX by omega)] at hj
  split at hj
  · rename_i hover
    have hover2 : BUFFER_SIZE < strlen s.message + strnlen buffer len := by omega
    have hk := strnlen_le_len buffer (BUFFER_SIZE - strlen s.message)
    unfold strncat_stores at hj
    rw [mem_storeIndices] at hj
    simp only [List.length_append, List.length_take, List.length_singleton] at hj
    omega
  · rename_i hfit
    have hnn : strnlen buffer (strnlen buffer len) = strnlen buffer len :=
      strnlen_of_le buffer len _ (le_refl _)
    unfold strncat_stores at hj
    rw [mem_storeIndices, hnn] at hj
    simp only [List.length_append, List.length_take, List.length_singleton] at hj
    omega

/-- Claim C18 evaluated at a failing input: the buffer holds
`BUFFER_SIZE - 3 = 2045` bytes and `dev_read` is called with `len = 1025` on
an output area of 1025 zero bytes, so `availBufferSpace = 1025 < message_size`.
The terminator is stored at index 1025, inside the array, but the shift loop
reads `message[i + 1025]` for every `i < 1025`: at `i = 1024` that is index
2049, past the last index `BUFFER_SIZE - 1 = 2047`. -/
theorem claim_C18_shift_reads_past_array :
    WellFormed nearlyFull ∧
    strnlen (List.replicate 1025 0) 1025 = 0 ∧
    toInt32 (((1025 : Nat) : Int) - ((strnlen (List.replicate 1025 0) 1025 : Nat) : Int)) = 1025 ∧
    (1025 : Int) < nearlyFull.message_size ∧
    nearlyFull.message_size ≤ (BUFFER_SIZE : Int) ∧
    dev_read_terminator nearlyFull (List.replicate 1025 0) 1025 = some 1025 ∧
    1024 + 1025 ∈ dev_read_loads nearlyFull (List.replicate 1025 0) 1025 ∧
    ¬ (1024 + 1025 < BUFFER_SIZE) := by
  have hl : dev_read_loads nearlyFull (List.replicate 1025 0) 1025
      = shiftLoopLoads 1025 0 1025 := by
    rfl
  refine ⟨wellFormed_nearlyFull, by decide, by decide, by decide, by decide, by decide, ?_,
    by decide⟩
  rw [hl, mem_shiftLoopLoads]
  exact ⟨1024, by omega, by omega, rfl⟩

/-- Claim C19 evaluated at a failing input: the buffer holds
`BUFFER_SIZE - 3 = 2045` bytes and "HELLO" is written with `len = 5`. The
overflow branch appends three characters at the indices 2045, 2046, 2047 and
`strncat` stores the terminating zero at index 2048, which is the new
`message_size` and lies past the last index `BUFFER_SIZE - 1 = 2047`. -/
theorem claim_C19_terminator_past_array :
    WellFormed nearlyFull ∧
    dev_write_stores nearlyFull hello 5 = [2045, 2046, 2047, 2048] ∧
    (dev_write nearlyFull hello 5).1.message_size = 2048 ∧
    2048 ∈ dev_write_stores nearlyFull hello 5 ∧
    ¬ (2048 < BUFFER_SIZE) := by
  have hs := strlen_nearlyFull
  have hst : dev_write_stores nearlyFull hello 5
      = storeIndices (strlen nearlyFull.message) (hello.take 3 ++ [0]) := by
    rfl
  have hst2 : dev_write_stores nearlyFull hello 5 = [2045, 2046, 2047, 2048] := by
    rw [hst, hs]
    rfl
  have hover : BUFFER_SIZE < strlen nearlyFull.message + strnlen hello 5 := by
    rw [hs]
    decide
  refine ⟨wellFormed_nearlyFull, hst2, ?_, ?_, by decide⟩
  · rw [dev_write_overflow_eq nearlyFull hello 5 wellFormed_nearlyFull (by decide) hover]
    rfl
  · rw [hst2]
    decide

end Driver
